import Mathlib

/-!
Verification development for the TACS distributed finite-element core
(assembly, boundary conditions, Krylov solve, reordering, BDF time
integration, adjoint sensitivities) against its specification.

The repository ships two example drivers, `examples/tutorial/tutorial.c`
and `examples/beam/beam.c`, plus one constitutive header.  Code that is
present in the repository (the partition arithmetic of the tutorial
driver, the beam driver's connectivity) is embedded directly; the core
library (TACSAssembler, GMRES/GCROT, the BDF integrator, the sparse
matrix classes) is absent from the repository sources, so those parts
are modelled from the specification, with each such definition marked
`Modelled from the spec:` in its doc comment.
-/

namespace Tacs

/-! ## Node partition (from `examples/tutorial/tutorial.c`, lines 82-112)

The tutorial driver computes, for `N = (nx+1)*(ny+1)` total nodes and
`P = size` processes:
  `nodesPerProc = N / P` (integer division),
  `firstNode    = rank * nodesPerProc`,
  `lastNode     = (rank+1) * nodesPerProc`, except `N` on the last rank,
  `numOwnedNodes = nodesPerProc`, except `N - nodesPerProc*(P-1)` on the
  last rank.
-/

/-- Nodes per process, from tutorial.c line 82: `((nx+1)*(ny+1))/size`. -/
def nodesPerProc (N P : Nat) : Nat := N / P

/-- First owned node of rank `r`, tutorial.c line 105: `rank*nodesPerProc`. -/
def firstNode (N P r : Nat) : Nat := r * nodesPerProc N P

/-- One-past-last owned node of rank `r`, tutorial.c lines 108-112:
`(rank+1)*nodesPerProc`, overridden to `(nx+1)*(ny+1)` on the last rank. -/
def lastNode (N P r : Nat) : Nat :=
  if r = P - 1 then N else (r + 1) * nodesPerProc N P

/-- Owned-node count of rank `r`, tutorial.c lines 85-93: `nodesPerProc`,
overridden to `(nx+1)*(ny+1) - nodesPerProc*(size-1)` on the last rank. -/
def numOwnedNodes (N P r : Nat) : Nat :=
  if r = P - 1 then N - nodesPerProc N P * (P - 1) else nodesPerProc N P

/-- The remainder `N / P * (P-1) ≤ N`, so the last rank's count never
underflows. -/
theorem nodesPerProc_mul_le (N P : Nat) : nodesPerProc N P * (P - 1) ≤ N := by
  calc nodesPerProc N P * (P - 1) ≤ nodesPerProc N P * P := by
        exact Nat.mul_le_mul_left _ (Nat.sub_le _ _)
    _ ≤ N := by
        rw [Nat.mul_comm]
        exact Nat.mul_div_le N P

/-! ## Beam driver connectivity (from `examples/beam/beam.c`, lines 113-136)

The beam driver sets `nnodes = 2*nelems+1` and, for element `i`,
`conn[3i] = 2i`, `conn[3i+1] = 2i+1`, `conn[3i+2] = 2i+2`
(with `ptr[i] = 3i`).  Flattened, the connectivity entry at index `k`
is `2*(k/3) + k%3`.
-/

/-- Total node count of the beam mesh, beam.c line 115: `2*nelems+1`. -/
def beamNumNodes (nelems : Nat) : Nat := 2 * nelems + 1

/-- Flattened beam connectivity, beam.c lines 130-136:
entry `k` belongs to element `k/3` at local slot `k%3` and references
global node `2*(k/3) + k%3`. -/
def beamConn (k : Nat) : Nat := 2 * (k / 3) + k % 3

/-- Helper: two distinct ranks cannot both own node `n`: the lower rank's
range ends no later than the higher rank's range begins. -/
theorem partition_disjoint (N P : Nat) {r₁ r₂ n : Nat} (h₂ : r₂ < P)
    (h12 : r₁ < r₂) (ha : n < lastNode N P r₁) (hb : firstNode N P r₂ ≤ n) :
    False := by
  have hr1 : r₁ ≠ P - 1 := by omega
  unfold lastNode at ha
  rw [if_neg hr1] at ha
  unfold firstNode at hb
  have hle : (r₁ + 1) * nodesPerProc N P ≤ r₂ * nodesPerProc N P :=
    Nat.mul_le_mul_right _ (by omega)
  omega

/-- Helper: every node `n < N` lies in some rank's ownership range. -/
theorem partition_covers (N P n : Nat) (hP : 0 < P) (hn : n < N) :
    ∃ r, r < P ∧ firstNode N P r ≤ n ∧ n < lastNode N P r := by
  by_cases hq : 0 < nodesPerProc N P
  · by_cases hcase : n / nodesPerProc N P < P - 1
    · refine ⟨n / nodesPerProc N P, by omega, ?_, ?_⟩
      · unfold firstNode
        exact Nat.div_mul_le_self n _
      · unfold lastNode
        rw [if_neg (by omega)]
        have hdm := Nat.div_add_mod n (nodesPerProc N P)
        have hmlt := Nat.mod_lt n hq
        rw [Nat.succ_mul, Nat.mul_comm]
        omega
    · refine ⟨P - 1, by omega, ?_, ?_⟩
      · unfold firstNode
        calc (P - 1) * nodesPerProc N P
            ≤ n / nodesPerProc N P * nodesPerProc N P :=
              Nat.mul_le_mul_right _ (by omega)
          _ ≤ n := Nat.div_mul_le_self n _
      · unfold lastNode
        rw [if_pos rfl]
        exact hn
  · refine ⟨P - 1, by omega, ?_, ?_⟩
    · unfold firstNode
      have hq0 : nodesPerProc N P = 0 := by omega
      rw [hq0, Nat.mul_zero]
      exact Nat.zero_le n
    · unfold lastNode
      rw [if_pos rfl]
      exact hn

/-- C4: the tutorial driver's partition arithmetic gives each process a
contiguous ownership range (count = lastNode − firstNode), the remainder
going to the last process; the owned-node counts sum to the total node
count `N`, and every node `n < N` is owned by exactly one process. -/
theorem partition_correct (N P : Nat) (hP : 0 < P) :
    (∑ r ∈ Finset.range P, numOwnedNodes N P r) = N ∧
    (∀ r, r < P → numOwnedNodes N P r = lastNode N P r - firstNode N P r) ∧
    (∀ n, n < N → ∃! r, r < P ∧ firstNode N P r ≤ n ∧ n < lastNode N P r) := by
  refine ⟨?_, ?_, ?_⟩
  · have key : ∀ r ∈ Finset.range (P - 1),
        numOwnedNodes N P r = nodesPerProc N P := by
      intro r hr
      rw [Finset.mem_range] at hr
      unfold numOwnedNodes
      rw [if_neg (by omega)]
    calc ∑ r ∈ Finset.range P, numOwnedNodes N P r
        = ∑ r ∈ Finset.range ((P - 1) + 1), numOwnedNodes N P r := by
          rw [Nat.sub_add_cancel hP]
      _ = (∑ r ∈ Finset.range (P - 1), numOwnedNodes N P r)
            + numOwnedNodes N P (P - 1) := Finset.sum_range_succ _ _
      _ = (P - 1) * nodesPerProc N P
            + (N - nodesPerProc N P * (P - 1)) := by
          rw [Finset.sum_congr rfl key, Finset.sum_const, Finset.card_range,
            smul_eq_mul]
          congr 1
          unfold numOwnedNodes
          rw [if_pos rfl]
      _ = N := by
          have h1 := nodesPerProc_mul_le N P
          have h2 : (P - 1) * nodesPerProc N P
              = nodesPerProc N P * (P - 1) := Nat.mul_comm _ _
          omega
  · intro r hr
    by_cases hcase : r = P - 1
    · subst hcase
      unfold numOwnedNodes lastNode firstNode
      rw [if_pos rfl, if_pos rfl, Nat.mul_comm]
    · unfold numOwnedNodes lastNode firstNode
      rw [if_neg hcase, if_neg hcase, Nat.succ_mul]
      omega
  · intro n hn
    obtain ⟨r, hrP, hfirst, hlast⟩ := partition_covers N P n hP hn
    refine ⟨r, ⟨hrP, hfirst, hlast⟩, ?_⟩
    intro y ⟨hyP, hyfirst, hylast⟩
    rcases Nat.lt_trichotomy y r with h | h | h
    · exact absurd (partition_disjoint N P hrP h hylast hfirst) id
    · exact h
    · exact absurd (partition_disjoint N P hyP h hlast hyfirst) id

/-- Witness for C4 at `N = 7`, `P = 3`: the owned counts sum to 7. -/
theorem partition_correct_witness :
    (∑ r ∈ Finset.range 3, numOwnedNodes 7 3 r) = 7 :=
  (partition_correct 7 3 (by decide)).1

/-- C10: in the beam driver, for every `nelems ≥ 1` the connectivity is
`conn[3i] = 2i`, `conn[3i+1] = 2i+1`, `conn[3i+2] = 2i+2`, and every
referenced node id is below `nnodes = 2*nelems+1`, so the
partition-error condition (an element referencing a node id outside
`[0, totalNodes)`) is unreachable for this driver. -/
theorem beamConn_in_range (nelems : Nat) (h : 1 ≤ nelems) :
    (∀ i, i < nelems →
      beamConn (3 * i) = 2 * i ∧ beamConn (3 * i + 1) = 2 * i + 1 ∧
      beamConn (3 * i + 2) = 2 * i + 2) ∧
    (∀ k, k < 3 * nelems → beamConn k < beamNumNodes nelems) := by
  constructor
  · intro i hi
    unfold beamConn
    omega
  · intro k hk
    unfold beamConn beamNumNodes
    omega

/-- Witness for C10 at `nelems = 10` (the value used in beam.c):
the last connectivity entry references node 20, inside `[0, 21)`. -/
theorem beamConn_in_range_witness : beamConn 29 < beamNumNodes 10 :=
  (beamConn_in_range 10 (by decide)).2 29 (by decide)

/-! ## Element assembly model (TACSAssembler)

The TACSAssembler sources are not part of this repository (only the
drivers that call `assembleJacobian`, `assembleRes`, `applyBCs`,
`addBCs` are), so the assembler is modelled from the specification,
section 4.4: per-element evaluation, local-to-global scatter-add,
Dirichlet enforcement by zeroing residual rows and replacing
constrained matrix rows/columns by identity rows, and the generalized
linear combination `alpha*K + beta*C + gamma*M`.
-/

/-- Scatter-add of a local vector `r` (indexed by local dof) into the
global entry `g` through the local-to-global map `loc`. -/
def scatterAdd (m : Nat) (loc : Fin m → Nat) (r : Fin m → ℚ) (g : Nat) : ℚ :=
  ∑ i, if loc i = g then r i else 0

/-- Scatter-add of a local matrix block `B` into the global entry
`(g, h)` through the local-to-global map `loc`. -/
def scatterAddMat (m : Nat) (loc : Fin m → Nat) (B : Fin m → Fin m → ℚ)
    (g h : Nat) : ℚ :=
  ∑ i, ∑ j, if loc i = g ∧ loc j = h then B i j else 0

/-- Modelled from the spec: one local element of the assembler (spec
section 4.4 and section 6) — a local-to-global dof map, the three local
operator blocks (stiffness-like, damping-like, mass-like) and the
external residual callable acting on gathered state/velocity/
acceleration.  The TACSElement sources are not in the repository. -/
structure FEElement where
  m : Nat
  loc : Fin m → Nat
  kmat : Fin m → Fin m → ℚ
  cmat : Fin m → Fin m → ℚ
  mmat : Fin m → Fin m → ℚ
  res : (Fin m → ℚ) → (Fin m → ℚ) → (Fin m → ℚ) → Fin m → ℚ

/-- Modelled from the spec: the finalized mesh seen by the assembler —
a dof count, the local element list, and the constrained-dof predicate
recorded by `addBCs`.  The TACSAssembler sources are not in the
repository. -/
structure FEMesh where
  numDofs : Nat
  elements : List FEElement
  bcs : Nat → Bool

/-- Gather the global vector `u` into element-local storage. -/
def gatherVec (e : FEElement) (u : Nat → ℚ) : Fin e.m → ℚ :=
  fun i => u (e.loc i)

/-- Modelled from the spec: `assembleResidual` (spec section 4.4) —
invoke each element's residual callable on the gathered state,
velocity and acceleration and scatter-add the local residuals. -/
def assembleResidual (mesh : FEMesh) (u v a : Nat → ℚ) (g : Nat) : ℚ :=
  (mesh.elements.map (fun e =>
    scatterAdd e.m e.loc
      (e.res (gatherVec e u) (gatherVec e v) (gatherVec e a)) g)).sum

/-- Modelled from the spec: `applyBCs` on a vector — the entry at every
constrained dof is forced to zero; unconstrained entries are kept (the
dof is not removed from the system). -/
def applyBCs (mesh : FEMesh) (r : Nat → ℚ) (g : Nat) : ℚ :=
  if mesh.bcs g then 0 else r g

/-- The per-element generalized block `alpha*K + beta*C + gamma*M`
(spec section 4.4). -/
def elementJacBlock (alpha beta gamma : ℚ) (e : FEElement) :
    Fin e.m → Fin e.m → ℚ :=
  fun i j => alpha * e.kmat i j + beta * e.cmat i j + gamma * e.mmat i j

/-- Modelled from the spec: the unconstrained assembled Jacobian entry —
scatter-add of each element's generalized block. -/
def assembleJacobianNoBC (mesh : FEMesh) (alpha beta gamma : ℚ)
    (g h : Nat) : ℚ :=
  (mesh.elements.map (fun e =>
    scatterAddMat e.m e.loc (elementJacBlock alpha beta gamma e) g h)).sum

/-- Modelled from the spec: `assembleJacobian` (spec section 4.4) —
the generalized linear-combination assembly followed by Dirichlet
enforcement: constrained rows/columns are replaced by an identity row
(diagonal one, zero elsewhere). -/
def assembleJacobian (mesh : FEMesh) (alpha beta gamma : ℚ)
    (g h : Nat) : ℚ :=
  if mesh.bcs g || mesh.bcs h then (if g = h then 1 else 0)
  else assembleJacobianNoBC mesh alpha beta gamma g h

/-- The assembled stiffness operator: scatter of the per-element
stiffness-like blocks alone. -/
def assembleStiffness (mesh : FEMesh) (g h : Nat) : ℚ :=
  (mesh.elements.map (fun e => scatterAddMat e.m e.loc e.kmat g h)).sum

/-- The assembled damping operator: scatter of the per-element
damping-like blocks alone. -/
def assembleDamping (mesh : FEMesh) (g h : Nat) : ℚ :=
  (mesh.elements.map (fun e => scatterAddMat e.m e.loc e.cmat g h)).sum

/-- The assembled mass operator: scatter of the per-element mass-like
blocks alone. -/
def assembleMass (mesh : FEMesh) (g h : Nat) : ℚ :=
  (mesh.elements.map (fun e => scatterAddMat e.m e.loc e.mmat g h)).sum

/-- Helper: the scatter of a generalized block is the generalized
combination of the scatters of the three blocks. -/
theorem scatterAddMat_jacBlock (e : FEElement) (alpha beta gamma : ℚ)
    (g h : Nat) :
    scatterAddMat e.m e.loc (elementJacBlock alpha beta gamma e) g h
      = alpha * scatterAddMat e.m e.loc e.kmat g h
          + beta * scatterAddMat e.m e.loc e.cmat g h
          + gamma * scatterAddMat e.m e.loc e.mmat g h := by
  unfold scatterAddMat elementJacBlock
  rw [Finset.mul_sum, Finset.mul_sum, Finset.mul_sum,
    ← Finset.sum_add_distrib, ← Finset.sum_add_distrib]
  refine Finset.sum_congr rfl fun i _ => ?_
  rw [Finset.mul_sum, Finset.mul_sum, Finset.mul_sum,
    ← Finset.sum_add_distrib, ← Finset.sum_add_distrib]
  refine Finset.sum_congr rfl fun j _ => ?_
  by_cases hc : e.loc i = g ∧ e.loc j = h
  · simp [hc]
  · simp [hc]

/-- Helper: a list sum of per-element generalized combinations splits
into the generalized combination of list sums. -/
theorem map_sum_comb (L : List FEElement) (alpha beta gamma : ℚ)
    (k c d : FEElement → ℚ) :
    (L.map (fun e => alpha * k e + beta * c e + gamma * d e)).sum
      = alpha * (L.map k).sum + beta * (L.map c).sum
          + gamma * (L.map d).sum := by
  induction L with
  | nil => simp
  | cons e t ih =>
    simp only [List.map_cons, List.sum_cons, ih]
    ring

/-- Helper: the unconstrained assembled Jacobian entry is the linear
combination `alpha*K + beta*C + gamma*M` of the assembled stiffness,
damping and mass operators. -/
theorem assembleJacobianNoBC_comb (mesh : FEMesh) (alpha beta gamma : ℚ)
    (g h : Nat) :
    assembleJacobianNoBC mesh alpha beta gamma g h
      = alpha * assembleStiffness mesh g h + beta * assembleDamping mesh g h
          + gamma * assembleMass mesh g h := by
  unfold assembleJacobianNoBC assembleStiffness assembleDamping assembleMass
  rw [← map_sum_comb]
  apply congrArg List.sum
  apply List.map_congr_left
  intro e _
  exact scatterAddMat_jacBlock e alpha beta gamma g h

/-- C2: each assembled unconstrained Jacobian entry equals
`alpha*K + beta*C + gamma*M` of the scattered per-element blocks; every
row or column at a constrained dof is an identity row (diagonal one,
zero elsewhere); and `alpha=1, beta=gamma=0` yields the static
stiffness matrix at unconstrained entries. -/
theorem assembleJacobian_spec (mesh : FEMesh) (alpha beta gamma : ℚ)
    (g h : Nat) :
    (mesh.bcs g = false → mesh.bcs h = false →
      assembleJacobian mesh alpha beta gamma g h
        = alpha * assembleStiffness mesh g h
            + beta * assembleDamping mesh g h
            + gamma * assembleMass mesh g h) ∧
    (mesh.bcs g = true ∨ mesh.bcs h = true →
      assembleJacobian mesh alpha beta gamma g h
        = if g = h then 1 else 0) ∧
    (mesh.bcs g = false → mesh.bcs h = false →
      assembleJacobian mesh 1 0 0 g h = assembleStiffness mesh g h) := by
  refine ⟨?_, ?_, ?_⟩
  · intro hg hh
    unfold assembleJacobian
    rw [hg, hh]
    simpa using assembleJacobianNoBC_comb mesh alpha beta gamma g h
  · intro hgh
    unfold assembleJacobian
    rcases hgh with hg | hg <;> rw [hg] <;> simp
  · intro hg hh
    unfold assembleJacobian
    rw [hg, hh]
    have := assembleJacobianNoBC_comb mesh 1 0 0 g h
    simpa using this

/-- A concrete demonstration element used by the witnesses: two local
dofs, identity local-to-global map, diagonal stiffness 2, zero damping,
identity mass, and the linear residual `K u - f` with `f = (2, 4)`. -/
def demoElem : FEElement where
  m := 2
  loc := fun i => i.val
  kmat := fun i j => if i = j then 2 else 0
  cmat := fun _ _ => 0
  mmat := fun i j => if i = j then 1 else 0
  res := fun u _ _ i =>
    (∑ j, (if i = j then (2 : ℚ) else 0) * u j)
      - (if i.val = 0 then 2 else 4)

/-- A concrete demonstration mesh used by the witnesses: two dofs, one
element, dof 0 constrained. -/
def demoMesh : FEMesh where
  numDofs := 2
  elements := [demoElem]
  bcs := fun g => g == 0

/-- Witness for C2 at the demonstration mesh: the unconstrained entry
`(1,1)` with coefficients `(2,3,5)` is the announced combination. -/
theorem assembleJacobian_spec_witness :
    assembleJacobian demoMesh 2 3 5 1 1
      = 2 * assembleStiffness demoMesh 1 1 + 3 * assembleDamping demoMesh 1 1
          + 5 * assembleMass demoMesh 1 1 :=
  (assembleJacobian_spec demoMesh 2 3 5 1 1).1 rfl rfl

/-- C3: the vector produced by `assembleResidual` followed by
`applyBCs` is exactly zero at every constrained dof, for every input
state, velocity and acceleration. -/
theorem assembleResidual_bc_zero (mesh : FEMesh) (u v a : Nat → ℚ)
    (g : Nat) (hg : mesh.bcs g = true) :
    applyBCs mesh (assembleResidual mesh u v a) g = 0 := by
  unfold applyBCs
  rw [hg]
  simp

/-- Witness for C3 at the demonstration mesh, constrained dof 0, with a
nonzero state. -/
theorem assembleResidual_bc_zero_witness :
    applyBCs demoMesh
      (assembleResidual demoMesh (fun _ => 1) (fun _ => 0) (fun _ => 0))
      0 = 0 :=
  assembleResidual_bc_zero demoMesh (fun _ => 1) (fun _ => 0) (fun _ => 0)
    0 rfl

/-! ## Linear problems and the assembly round trip (claim C8)

For the manufactured-solution round trip the element residual callable
is linear: `r_loc(u) = K_e u_loc - f_e`.  A `LinElem` records the data
of such an element; `LinElem.toFE` is the corresponding assembler
element. -/

/-- An element whose residual is the linear form `K u - f`. -/
structure LinElem where
  m : Nat
  loc : Fin m → Nat
  kmat : Fin m → Fin m → ℚ
  cmat : Fin m → Fin m → ℚ
  mmat : Fin m → Fin m → ℚ
  fvec : Fin m → ℚ

/-- The local linear residual `K u - f` of a linear element. -/
def linearResidualLoc (e : LinElem) (u : Fin e.m → ℚ) : Fin e.m → ℚ :=
  fun i => (∑ j, e.kmat i j * u j) - e.fvec i

/-- The assembler element of a linear element. -/
def LinElem.toFE (e : LinElem) : FEElement :=
  ⟨e.m, e.loc, e.kmat, e.cmat, e.mmat, fun u _ _ => linearResidualLoc e u⟩

/-- A mesh of linear elements. -/
structure LinMesh where
  numDofs : Nat
  elements : List LinElem
  bcs : Nat → Bool

/-- The assembler mesh of a linear mesh. -/
def LinMesh.toFE (mesh : LinMesh) : FEMesh :=
  ⟨mesh.numDofs, mesh.elements.map LinElem.toFE, mesh.bcs⟩

/-- The assembled load vector: scatter of the per-element loads. -/
def assembleLoad (mesh : LinMesh) (g : Nat) : ℚ :=
  (mesh.elements.map (fun e => scatterAdd e.m e.loc e.fvec g)).sum

/-- Dense matrix-vector product over the first `n` global dofs. -/
def matVec (n : Nat) (A : Nat → Nat → ℚ) (u : Nat → ℚ) (g : Nat) : ℚ :=
  ∑ x ∈ Finset.range n, A g x * u x

/-- The 1-norm of a global vector over the first `n` dofs. -/
def vecAbsSum (n : Nat) (r : Nat → ℚ) : ℚ :=
  ∑ g ∈ Finset.range n, |r g|

/-- Modelled from the spec: the right-hand side assembled through the
residual path — the negated residual at the zero state, with the
constrained entries zeroed (tutorial.c solves `K ans = res` and takes
`u = -ans`). -/
def assembleRhs (mesh : LinMesh) (g : Nat) : ℚ :=
  applyBCs mesh.toFE
    (fun x =>
      - assembleResidual mesh.toFE (fun _ => 0) (fun _ => 0) (fun _ => 0) x)
    g

/-- Helper: scatter of a pointwise difference. -/
theorem scatterAdd_sub (m : Nat) (loc : Fin m → Nat) (r s : Fin m → ℚ)
    (g : Nat) :
    scatterAdd m loc (fun i => r i - s i) g
      = scatterAdd m loc r g - scatterAdd m loc s g := by
  unfold scatterAdd
  rw [← Finset.sum_sub_distrib]
  refine Finset.sum_congr rfl fun i _ => ?_
  by_cases hc : loc i = g <;> simp [hc]

/-- Helper: a list sum of pointwise differences. -/
theorem map_sum_sub (L : List LinElem) (f₁ f₂ : LinElem → ℚ) :
    (L.map (fun e => f₁ e - f₂ e)).sum
      = (L.map f₁).sum - (L.map f₂).sum := by
  induction L with
  | nil => simp
  | cons e t ih =>
    simp only [List.map_cons, List.sum_cons, ih]
    ring

/-- Helper: the assembled residual of a linear mesh splits into the
stiffness action on the gathered state minus the assembled load. -/
theorem assembleResidual_linear (mesh : LinMesh) (u v a : Nat → ℚ)
    (g : Nat) :
    assembleResidual mesh.toFE u v a g
      = (mesh.elements.map (fun e =>
          scatterAdd e.m e.loc (fun i => ∑ j, e.kmat i j * u (e.loc j)) g)).sum
        - assembleLoad mesh g := by
  unfold assembleResidual assembleLoad LinMesh.toFE
  rw [List.map_map, ← map_sum_sub]
  apply congrArg List.sum
  apply List.map_congr_left
  intro e _
  show scatterAdd e.m e.loc
      (linearResidualLoc e (gatherVec (LinElem.toFE e) u)) g = _
  rw [← scatterAdd_sub]
  rfl

/-- Helper: the rhs assembled through the residual path equals the
assembled load with constrained entries zeroed. -/
theorem assembleRhs_eq_load (mesh : LinMesh) (g : Nat) :
    assembleRhs mesh g = applyBCs mesh.toFE (assembleLoad mesh) g := by
  unfold assembleRhs applyBCs
  by_cases hg : mesh.toFE.bcs g = true
  · rw [if_pos hg, if_pos hg]
  · rw [if_neg hg, if_neg hg]
    show -assembleResidual mesh.toFE (fun _ => 0) (fun _ => 0) (fun _ => 0) g
        = assembleLoad mesh g
    rw [assembleResidual_linear mesh _ _ _ g]
    have hz : (mesh.elements.map (fun e =>
        scatterAdd e.m e.loc
          (fun i => ∑ j, e.kmat i j * (fun _ : Nat => (0:ℚ)) (e.loc j)) g)).sum
        = 0 := by
      have : ∀ e ∈ mesh.elements,
          scatterAdd e.m e.loc
            (fun i => ∑ j, e.kmat i j * (fun _ : Nat => (0:ℚ)) (e.loc j)) g
            = 0 := by
        intro e _
        unfold scatterAdd
        refine Finset.sum_eq_zero fun i _ => ?_
        by_cases hc : e.loc i = g <;> simp [hc]
      rw [List.map_congr_left this]
      simp
    rw [hz]
    ring

/-- Helper: a dense row sum over a list-assembled matrix commutes with
the list sum. -/
theorem range_sum_map_sum {α : Type} (n : Nat) (L : List α)
    (S : α → Nat → ℚ) (u : Nat → ℚ) :
    ∑ x ∈ Finset.range n, ((L.map (fun e => S e x)).sum * u x)
      = (L.map (fun e => ∑ x ∈ Finset.range n, S e x * u x)).sum := by
  induction L with
  | nil => simp
  | cons e t ih =>
    simp only [List.map_cons, List.sum_cons, add_mul]
    rw [Finset.sum_add_distrib, ih]

/-- Helper: the row of a scattered local block, multiplied against a
global vector with all referenced columns inside `[0, n)`, is the
scatter of the local block acting on the gathered vector. -/
theorem scatterAddMat_row (m : Nat) (loc : Fin m → Nat)
    (B : Fin m → Fin m → ℚ) (u : Nat → ℚ) (n g : Nat)
    (hb : ∀ j, loc j < n) :
    ∑ x ∈ Finset.range n, scatterAddMat m loc B g x * u x
      = scatterAdd m loc (fun i => ∑ j, B i j * u (loc j)) g := by
  unfold scatterAddMat scatterAdd
  calc ∑ x ∈ Finset.range n,
        (∑ i, ∑ j, if loc i = g ∧ loc j = x then B i j else 0) * u x
      = ∑ x ∈ Finset.range n, ∑ i, ∑ j,
          (if loc i = g ∧ loc j = x then B i j * u x else 0) := by
        refine Finset.sum_congr rfl fun x _ => ?_
        rw [Finset.sum_mul]
        refine Finset.sum_congr rfl fun i _ => ?_
        rw [Finset.sum_mul]
        refine Finset.sum_congr rfl fun j _ => ?_
        by_cases hc : loc i = g ∧ loc j = x <;> simp [hc]
    _ = ∑ i, ∑ j, ∑ x ∈ Finset.range n,
          (if loc i = g ∧ loc j = x then B i j * u x else 0) := by
        rw [Finset.sum_comm]
        refine Finset.sum_congr rfl fun i _ => ?_
        rw [Finset.sum_comm]
    _ = ∑ i, (if loc i = g then (∑ j, B i j * u (loc j)) else 0) := by
        refine Finset.sum_congr rfl fun i _ => ?_
        by_cases hgi : loc i = g
        · simp only [hgi, true_and, if_pos rfl, if_true]
          refine Finset.sum_congr rfl fun j _ => ?_
          have hmem : loc j ∈ Finset.range n := Finset.mem_range.mpr (hb j)
          rw [Finset.sum_ite_eq (Finset.range n) (loc j)
            (fun x => B i j * u x), if_pos hmem]
        · simp [hgi]

/-- Helper: the unconstrained static Jacobian acting densely on a
global vector equals the per-element stiffness action, provided every
local-to-global index is inside `[0, n)`. -/
theorem matVec_noBC (mesh : LinMesh) (u : Nat → ℚ) (g : Nat)
    (hwf : ∀ e ∈ mesh.elements, ∀ j, e.loc j < mesh.numDofs) :
    matVec mesh.numDofs (assembleJacobianNoBC mesh.toFE 1 0 0) u g
      = (mesh.elements.map (fun e =>
          scatterAdd e.m e.loc
            (fun i => ∑ j, e.kmat i j * u (e.loc j)) g)).sum := by
  unfold matVec
  have hstiff : ∀ x, assembleJacobianNoBC mesh.toFE 1 0 0 g x
      = assembleStiffness mesh.toFE g x := by
    intro x
    rw [assembleJacobianNoBC_comb]
    ring
  calc ∑ x ∈ Finset.range mesh.numDofs,
        assembleJacobianNoBC mesh.toFE 1 0 0 g x * u x
      = ∑ x ∈ Finset.range mesh.numDofs,
          assembleStiffness mesh.toFE g x * u x := by
        refine Finset.sum_congr rfl fun x _ => ?_
        rw [hstiff]
    _ = (mesh.toFE.elements.map (fun e =>
          ∑ x ∈ Finset.range mesh.numDofs,
            scatterAddMat e.m e.loc e.kmat g x * u x)).sum := by
        unfold assembleStiffness
        exact range_sum_map_sum mesh.numDofs mesh.toFE.elements
          (fun e x => scatterAddMat e.m e.loc e.kmat g x) u
    _ = _ := by
        unfold LinMesh.toFE
        rw [List.map_map]
        apply congrArg List.sum
        apply List.map_congr_left
        intro e he
        show ∑ x ∈ Finset.range mesh.numDofs,
            scatterAddMat e.m e.loc e.kmat g x * u x = _
        exact scatterAddMat_row e.m e.loc e.kmat u mesh.numDofs g
          (hwf e he)

/-- Helper: on an unconstrained row, with a vector vanishing at
constrained dofs, the boundary-conditioned Jacobian acts like the
unconstrained one. -/
theorem matVec_bc_free (mesh : LinMesh) (u : Nat → ℚ) (g : Nat)
    (hg : mesh.bcs g = false) (hbc : ∀ x, mesh.bcs x = true → u x = 0) :
    matVec mesh.numDofs (assembleJacobian mesh.toFE 1 0 0) u g
      = matVec mesh.numDofs (assembleJacobianNoBC mesh.toFE 1 0 0) u g := by
  unfold matVec
  refine Finset.sum_congr rfl fun x _ => ?_
  unfold assembleJacobian
  by_cases hx : mesh.toFE.bcs x = true
  · have hux : u x = 0 := hbc x hx
    rw [hux]
    simp
  · have hgf : mesh.toFE.bcs g = false := hg
    rw [Bool.not_eq_true] at hx
    rw [hgf, hx]
    simp

/-- Helper: on a constrained row, the boundary-conditioned Jacobian
acting on a vector vanishing at constrained dofs gives zero. -/
theorem matVec_bc_fixed (mesh : LinMesh) (u : Nat → ℚ) (g : Nat)
    (hg : mesh.bcs g = true) (hbc : ∀ x, mesh.bcs x = true → u x = 0) :
    matVec mesh.numDofs (assembleJacobian mesh.toFE 1 0 0) u g = 0 := by
  unfold matVec
  have hrow : ∀ x, assembleJacobian mesh.toFE 1 0 0 g x
      = if g = x then 1 else 0 := by
    intro x
    unfold assembleJacobian
    have hgt : mesh.toFE.bcs g = true := hg
    rw [hgt]
    simp
  calc ∑ x ∈ Finset.range mesh.numDofs,
        assembleJacobian mesh.toFE 1 0 0 g x * u x
      = ∑ x ∈ Finset.range mesh.numDofs,
          (if g = x then u x else 0) := by
        refine Finset.sum_congr rfl fun x _ => ?_
        rw [hrow]
        by_cases hgx : g = x <;> simp [hgx]
    _ = if g ∈ Finset.range mesh.numDofs then u g else 0 :=
        Finset.sum_ite_eq (Finset.range mesh.numDofs) g u
    _ = 0 := by
        by_cases hmem : g ∈ Finset.range mesh.numDofs <;>
          simp [hmem, hbc g hg]

/-- C8: round-trip consistency of assembly for a linear problem — the
static Jacobian `assembleJacobian(1,0,0)` applied to the exact solution
`u`, minus the right-hand side assembled through the residual path,
coincides entry-wise with the boundary-conditioned reassembled residual
at `u`, and its 1-norm is zero, hence below every positive tolerance. -/
theorem linear_roundtrip (mesh : LinMesh) (u v a : Nat → ℚ) (tol : ℚ)
    (hwf : ∀ e ∈ mesh.elements, ∀ j, e.loc j < mesh.numDofs)
    (hbc : ∀ x, mesh.bcs x = true → u x = 0)
    (hsol : ∀ g, g < mesh.numDofs →
        matVec mesh.numDofs (assembleJacobian mesh.toFE 1 0 0) u g
          = assembleRhs mesh g)
    (htol : 0 < tol) :
    (∀ g, matVec mesh.numDofs (assembleJacobian mesh.toFE 1 0 0) u g
          - assembleRhs mesh g
        = applyBCs mesh.toFE (assembleResidual mesh.toFE u v a) g) ∧
    vecAbsSum mesh.numDofs (fun g =>
      matVec mesh.numDofs (assembleJacobian mesh.toFE 1 0 0) u g
        - assembleRhs mesh g) = 0 ∧
    vecAbsSum mesh.numDofs (fun g =>
      matVec mesh.numDofs (assembleJacobian mesh.toFE 1 0 0) u g
        - assembleRhs mesh g) < tol := by
  have h2 : vecAbsSum mesh.numDofs (fun g =>
      matVec mesh.numDofs (assembleJacobian mesh.toFE 1 0 0) u g
        - assembleRhs mesh g) = 0 := by
    unfold vecAbsSum
    refine Finset.sum_eq_zero fun g hgmem => ?_
    show |matVec mesh.numDofs (assembleJacobian mesh.toFE 1 0 0) u g
        - assembleRhs mesh g| = 0
    rw [hsol g (Finset.mem_range.mp hgmem)]
    simp
  refine ⟨?_, h2, by rw [h2]; exact htol⟩
  intro g
  by_cases hg : mesh.bcs g = true
  · rw [matVec_bc_fixed mesh u g hg hbc, assembleRhs_eq_load]
    unfold applyBCs
    have hgt : mesh.toFE.bcs g = true := hg
    simp [hgt]
  · rw [Bool.not_eq_true] at hg
    rw [matVec_bc_free mesh u g hg hbc, matVec_noBC mesh u g hwf,
      assembleRhs_eq_load]
    unfold applyBCs
    have hgt : mesh.toFE.bcs g = false := hg
    rw [hgt]
    simp only [Bool.false_eq_true, if_false]
    rw [assembleResidual_linear]

/-- The linear demonstration element matching `demoElem`. -/
def demoLinElem : LinElem where
  m := 2
  loc := fun i => i.val
  kmat := fun i j => if i = j then 2 else 0
  cmat := fun _ _ => 0
  mmat := fun i j => if i = j then 1 else 0
  fvec := fun i => if i.val = 0 then 2 else 4

/-- The linear demonstration mesh matching `demoMesh`. -/
def demoLinMesh : LinMesh where
  numDofs := 2
  elements := [demoLinElem]
  bcs := fun g => g == 0

/-- Witness for C8 at the demonstration linear mesh: the exact solution
is `u = (0, 2)` and the round-trip defect has 1-norm zero. -/
theorem linear_roundtrip_witness :
    vecAbsSum demoLinMesh.numDofs (fun g =>
      matVec demoLinMesh.numDofs (assembleJacobian demoLinMesh.toFE 1 0 0)
        (fun x => if x = 1 then 2 else 0) g - assembleRhs demoLinMesh g)
      = 0 :=
  (linear_roundtrip demoLinMesh (fun x => if x = 1 then 2 else 0)
    (fun _ => 0) (fun _ => 0) 1
    (by decide)
    (by
      intro x hx
      have hx0 : x = 0 := by simpa [demoLinMesh] using hx
      subst hx0
      rfl)
    (by
      intro g hg
      have hg2 : g < 2 := hg
      clear hg
      interval_cases g <;>
        simp [matVec, assembleJacobian, assembleJacobianNoBC, assembleRhs,
          assembleResidual, applyBCs, scatterAddMat, scatterAdd,
          elementJacBlock, demoLinMesh, demoLinElem, LinMesh.toFE,
          LinElem.toFE, linearResidualLoc, gatherVec, Finset.sum_range_succ,
          Fin.sum_univ_two] <;>
        norm_num)
    (by decide)).2.1

/-! ## Krylov solver convergence reporting (claim C5)

The GMRES/GCROT sources are not in the repository; the convergence
loop is modelled from spec section 4.7.  The iteration itself is
abstracted by the sequence `rel : Nat → ℚ` of relative residual norms
it produces (`rel k` after `k` iterations); the loop stops at the first
iteration whose relative residual is below `tol`, or after `maxIters`
iterations. -/

/-- The structured result of a Krylov solve: non-convergence is data
(a converged flag plus diagnostics), never an error. -/
structure KrylovResult where
  converged : Bool
  iterations : Nat
  finalRelRes : ℚ

/-- Modelled from the spec: the inner convergence loop — after
iteration `k`, with `remaining` iterations still allowed, test the next
relative residual against `tol`. -/
def krylovLoop (rel : Nat → ℚ) (tol : ℚ) (k : Nat) : Nat → KrylovResult
  | 0 => ⟨false, k, rel k⟩
  | remaining + 1 =>
    if rel (k + 1) < tol then ⟨true, k + 1, rel (k + 1)⟩
    else krylovLoop rel tol (k + 1) remaining

/-- Modelled from the spec: `solve` returns `converged` exactly when
the relative residual fell below `tol` within `maxIters` iterations;
exhausting `maxIters` is reported as `converged = false` in the result
structure — the model's return type has no error alternative. -/
def krylovSolve (rel : Nat → ℚ) (tol : ℚ) (maxIters : Nat) : KrylovResult :=
  if rel 0 < tol then ⟨true, 0, rel 0⟩
  else krylovLoop rel tol 0 maxIters

/-- Helper: characterization of the inner loop when every relative
residual up to the current iteration is still above `tol`. -/
theorem krylovLoop_spec (rel : Nat → ℚ) (tol : ℚ) :
    ∀ remaining k, (∀ j, j ≤ k → ¬ rel j < tol) →
      (((krylovLoop rel tol k remaining).converged = true ↔
        ∃ j, j ≤ k + remaining ∧ rel j < tol) ∧
      ((krylovLoop rel tol k remaining).converged = false →
        (krylovLoop rel tol k remaining).iterations = k + remaining)) := by
  intro remaining
  induction remaining with
  | zero =>
    intro k hk
    refine ⟨?_, fun _ => rfl⟩
    simp only [krylovLoop]
    constructor
    · intro hfalse
      exact absurd hfalse (by simp)
    · rintro ⟨j, hj, hjlt⟩
      exact absurd hjlt (hk j (by omega))
  | succ remaining ih =>
    intro k hk
    by_cases hnext : rel (k + 1) < tol
    · constructor
      · simp only [krylovLoop, if_pos hnext]
        constructor
        · intro _
          exact ⟨k + 1, by omega, hnext⟩
        · intro _
          trivial
      · simp only [krylovLoop, if_pos hnext]
        intro hfalse
        exact absurd hfalse (by simp)
    · have hk1 : ∀ j, j ≤ k + 1 → ¬ rel j < tol := by
        intro j hj
        rcases Nat.lt_or_ge j (k + 1) with hlt | hge
        · exact hk j (by omega)
        · have : j = k + 1 := by omega
          rw [this]
          exact hnext
      have := ih (k + 1) hk1
      constructor
      · simp only [krylovLoop, if_neg hnext]
        rw [this.1]
        constructor
        · rintro ⟨j, hj, hjlt⟩
          exact ⟨j, by omega, hjlt⟩
        · rintro ⟨j, hj, hjlt⟩
          exact ⟨j, by omega, hjlt⟩
      · simp only [krylovLoop, if_neg hnext]
        intro hfalse
        rw [this.2 hfalse]
        omega

/-- C5: a Krylov solve reports `converged = true` exactly when the
relative residual norm fell below `tol` within `maxIters` iterations,
and exhausting `maxIters` yields `converged = false` with the iteration
count as diagnostics in the returned structure — non-convergence is
returned as data, never an error (the result type has no error case). -/
theorem krylov_converged_iff (rel : Nat → ℚ) (tol : ℚ) (maxIters : Nat) :
    ((krylovSolve rel tol maxIters).converged = true ↔
      ∃ k, k ≤ maxIters ∧ rel k < tol) ∧
    ((krylovSolve rel tol maxIters).converged = false →
      (krylovSolve rel tol maxIters).iterations = maxIters) := by
  by_cases h0 : rel 0 < tol
  · constructor
    · simp only [krylovSolve, if_pos h0]
      constructor
      · intro _
        exact ⟨0, Nat.zero_le _, h0⟩
      · intro _
        trivial
    · simp only [krylovSolve, if_pos h0]
      intro hfalse
      exact absurd hfalse (by simp)
  · have hbase : ∀ j, j ≤ 0 → ¬ rel j < tol := by
      intro j hj
      have : j = 0 := by omega
      rw [this]
      exact h0
    have := krylovLoop_spec rel tol maxIters 0 hbase
    constructor
    · simp only [krylovSolve, if_neg h0]
      rw [this.1]
      constructor
      · rintro ⟨j, hj, hjlt⟩
        exact ⟨j, by omega, hjlt⟩
      · rintro ⟨j, hj, hjlt⟩
        exact ⟨j, by omega, hjlt⟩
    · simp only [krylovSolve, if_neg h0]
      intro hfalse
      rw [this.2 hfalse]
      omega

/-- Witness for C5: a run whose relative residual first drops below
`1/2` at iteration 2 (cap 3) reports convergence. -/
theorem krylov_converged_iff_witness :
    (krylovSolve (fun k => if k = 2 then 0 else 1) (1/2) 3).converged
      = true :=
  (krylov_converged_iff (fun k => if k = 2 then 0 else 1) (1/2) 3).1.mpr
    ⟨2, by omega, by norm_num⟩

/-! ## Fill-reducing reordering (claim C6)

The reordering sources are not in the repository; the strategies are
modelled from spec sections 4.2 and 6 and the design note of section 9:
the exact tie-break/pivot policy of AMD/RCM/ND is an implementation
detail, any deterministic permutation satisfying the bijection
invariant being acceptable.  The model takes AMD as the identity
permutation, RCM as index reversal (reverse Cuthill-McKee reverses a
level ordering), and ND as the even-odd interleave (a one-level
nested-dissection split).  The default, `NO_ORDER`, is the identity. -/

/-- The recognized ordering strategies (spec section 6):
`reordering ∈ {none, AMD, RCM, ND}`. -/
inductive OrderingType where
  | NO_ORDER
  | AMD_ORDER
  | RCM_ORDER
  | ND_ORDER

/-- The even-odd interleave on node numbers: the first half maps to the
even positions, the second half to the odd positions. -/
def ndNat (n i : Nat) : Nat :=
  if i < (n + 1) / 2 then 2 * i else 2 * (i - (n + 1) / 2) + 1

/-- Modelled from the spec: the permutation of the `n` owned nodes
produced by `computeReordering` for each strategy. -/
def reorderPerm (t : OrderingType) (n : Nat) : Fin n → Fin n :=
  match t with
  | .NO_ORDER => id
  | .AMD_ORDER => id
  | .RCM_ORDER => fun i => ⟨n - 1 - i.val, by have hi := i.isLt; omega⟩
  | .ND_ORDER => fun i =>
      ⟨ndNat n i.val, by have hi := i.isLt; unfold ndNat; split <;> omega⟩

/-- Helper: every modelled reordering strategy yields an injective map
on the owned nodes. -/
theorem reorderPerm_injective (t : OrderingType) (n : Nat) :
    Function.Injective (reorderPerm t n) := by
  cases t with
  | NO_ORDER => exact fun a b hab => hab
  | AMD_ORDER => exact fun a b hab => hab
  | RCM_ORDER =>
    intro a b hab
    have hval : n - 1 - a.val = n - 1 - b.val := congrArg Fin.val hab
    have ha := a.isLt
    have hb := b.isLt
    apply Fin.ext
    omega
  | ND_ORDER =>
    intro a b hab
    have hval : ndNat n a.val = ndNat n b.val := congrArg Fin.val hab
    have ha := a.isLt
    have hb := b.isLt
    apply Fin.ext
    unfold ndNat at hval
    split_ifs at hval <;> omega

/-- The assembler lifecycle state: owned-node count, finalization flag,
and the current ordering of the owned nodes. -/
structure AsmState where
  nOwned : Nat
  finalized : Bool
  ordering : Fin nOwned → Fin nOwned

/-- The operations of the assembler lifecycle visible in the tutorial
driver: compute a reordering, finalize (`initialize()`), create
vectors/matrices, assemble. -/
inductive AsmOp where
  | computeReordering (t : OrderingType)
  | finalizeOp
  | createVec
  | createMat
  | assembleJacobianOp (alpha beta gamma : ℚ)
  | assembleResidualOp

/-- Modelled from the spec: the lifecycle transition — a reordering may
only be computed before the mesh is finalized (vectors and matrices are
indexed in permuted order, spec section 4.2); after finalization no
operation changes the ordering; vector/matrix creation and assembly
never touch it. -/
def applyOp (s : AsmState) : AsmOp → AsmState
  | .computeReordering t =>
      if s.finalized then s
      else { s with ordering := reorderPerm t s.nOwned }
  | .finalizeOp => { s with finalized := true }
  | .createVec => s
  | .createMat => s
  | .assembleJacobianOp _ _ _ => s
  | .assembleResidualOp => s

/-- The initial assembler state: unordered (identity) by default, not
yet finalized. -/
def asmInit (n : Nat) : AsmState := ⟨n, false, id⟩

/-- The ordering seen from outside, as a plain function on node
numbers (identity outside the owned range). -/
def orderingOf (s : AsmState) (i : Nat) : Nat :=
  if h : i < s.nOwned then (s.ordering ⟨i, h⟩).val else i

/-- Helper: once the mesh is finalized, no lifecycle operation changes
the state at all. -/
theorem applyOp_frozen (s : AsmState) (hs : s.finalized = true)
    (op : AsmOp) : applyOp s op = s := by
  cases op with
  | computeReordering t => simp [applyOp, hs]
  | finalizeOp =>
    cases s with
    | mk n f ord =>
      simp only [applyOp]
      rw [show f = true from hs]
  | createVec => rfl
  | createMat => rfl
  | assembleJacobianOp alpha beta gamma => rfl
  | assembleResidualOp => rfl

/-- Helper: a finalized state is fixed by any sequence of lifecycle
operations. -/
theorem foldl_frozen (ops : List AsmOp) :
    ∀ s : AsmState, s.finalized = true → ops.foldl applyOp s = s := by
  induction ops with
  | nil => intro s _; rfl
  | cons op rest ih =>
    intro s hs
    show rest.foldl applyOp (applyOp s op) = s
    rw [applyOp_frozen s hs op]
    exact ih s hs

/-- C6: every reordering strategy in `{none, AMD, RCM, ND}` produces a
bijection of the owned nodes; the default (no strategy) is the identity
ordering; and after the mesh is finalized the ordering is immutable —
no sequence of lifecycle operations (including vector/matrix creation
and assembly) changes it. -/
theorem reordering_spec :
    (∀ (t : OrderingType) (n : Nat), Function.Bijective (reorderPerm t n)) ∧
    (∀ n : Nat, reorderPerm OrderingType.NO_ORDER n = id) ∧
    (∀ n : Nat, (asmInit n).ordering = id ∧ (asmInit n).finalized = false) ∧
    (∀ s : AsmState, s.finalized = true → ∀ ops : List AsmOp,
      orderingOf (ops.foldl applyOp s) = orderingOf s) := by
  refine ⟨?_, ?_, ?_, ?_⟩
  · intro t n
    exact (Finite.injective_iff_bijective).mp (reorderPerm_injective t n)
  · intro n
    rfl
  · intro n
    exact ⟨rfl, rfl⟩
  · intro s hs ops
    rw [foldl_frozen ops s hs]

/-- Witness for C6: a finalized three-node state keeps its ordering
through a reordering request followed by matrix creation and assembly. -/
theorem reordering_spec_witness :
    orderingOf
      (([AsmOp.computeReordering OrderingType.RCM_ORDER, AsmOp.createMat,
        AsmOp.assembleJacobianOp 1 0 0].foldl applyOp
          ⟨3, true, id⟩ : AsmState))
      = orderingOf ⟨3, true, id⟩ :=
  reordering_spec.2.2.2 ⟨3, true, id⟩ rfl
    [AsmOp.computeReordering OrderingType.RCM_ORDER, AsmOp.createMat,
      AsmOp.assembleJacobianOp 1 0 0]

/-! ## Assembled sparse matrix structure reuse (claim C7)

The DistMat/FEMat sources are not in the repository; the two assembled
matrix variants are modelled from spec section 4.5: the nonzero
structure is built at the first assembly; later assemblies refresh only
the numeric values. -/

/-- The two assembled-matrix strategies of spec section 4.5. -/
inductive MatVariant where
  | schurExplicit
  | overlapping

/-- All (row, column) pairs reachable through one element. -/
def elemPairs (e : FEElement) : List (Nat × Nat) :=
  (List.finRange e.m).flatMap (fun i =>
    (List.finRange e.m).map (fun j => (e.loc i, e.loc j)))

/-- Modelled from the spec: the nonzero structure over dof pairs
reachable through shared elements.  The overlapping variant keeps the
per-element contributions redundantly; the Schur-explicit variant keeps
each pair once. -/
def computePattern (variant : MatVariant) (mesh : FEMesh) :
    List (Nat × Nat) :=
  match variant with
  | .overlapping => mesh.elements.flatMap elemPairs
  | .schurExplicit => (mesh.elements.flatMap elemPairs).dedup

/-- An assembled sparse matrix: variant tag, whether the structure has
been built, the nonzero pattern, and the current numeric values. -/
structure SpMat where
  variant : MatVariant
  structureBuilt : Bool
  pattern : List (Nat × Nat)
  values : Nat × Nat → ℚ

/-- A freshly created matrix: no structure yet. -/
def emptyMat (variant : MatVariant) : SpMat :=
  ⟨variant, false, [], fun _ => 0⟩

/-- Modelled from the spec: one assembly call into a matrix — on the
first call the nonzero structure is built from the connectivity; on
every later call the structure is left untouched and only the numeric
values are refreshed. -/
def assembleInto (mesh : FEMesh) (alpha beta gamma : ℚ) (A : SpMat) :
    SpMat :=
  if A.structureBuilt then
    { A with values := fun p => assembleJacobian mesh alpha beta gamma p.1 p.2 }
  else
    { variant := A.variant, structureBuilt := true,
      pattern := computePattern A.variant mesh,
      values := fun p => assembleJacobian mesh alpha beta gamma p.1 p.2 }

/-- Helper: every assembly call refreshes the numeric values to the
entries assembled with the supplied coefficients. -/
theorem assembleInto_values (mesh : FEMesh) (alpha beta gamma : ℚ)
    (A : SpMat) :
    (assembleInto mesh alpha beta gamma A).values
      = fun p => assembleJacobian mesh alpha beta gamma p.1 p.2 := by
  unfold assembleInto
  split <;> rfl

/-- Helper: an assembly call into a built matrix keeps the structure. -/
theorem assembleInto_built (mesh : FEMesh) (alpha beta gamma : ℚ)
    (A : SpMat) (hA : A.structureBuilt = true) :
    (assembleInto mesh alpha beta gamma A).structureBuilt = true ∧
    (assembleInto mesh alpha beta gamma A).pattern = A.pattern := by
  unfold assembleInto
  rw [if_pos hA]
  exact ⟨hA, rfl⟩

/-- Helper: any sequence of assembly calls into a built matrix keeps
the structure. -/
theorem foldl_assemble_pattern (mesh : FEMesh)
    (calls : List (ℚ × ℚ × ℚ)) :
    ∀ A : SpMat, A.structureBuilt = true →
      (calls.foldl (fun B c => assembleInto mesh c.1 c.2.1 c.2.2 B)
          A).structureBuilt = true ∧
      (calls.foldl (fun B c => assembleInto mesh c.1 c.2.1 c.2.2 B)
          A).pattern = A.pattern := by
  induction calls with
  | nil => exact fun A hA => ⟨hA, rfl⟩
  | cons c rest ih =>
    intro A hA
    have hstep := assembleInto_built mesh c.1 c.2.1 c.2.2 A hA
    have := ih (assembleInto mesh c.1 c.2.1 c.2.2 A) hstep.1
    exact ⟨this.1, by rw [List.foldl_cons, this.2, hstep.2]⟩

/-- C7: for both assembled sparse matrix variants, the first assembly
into a fresh matrix builds the nonzero structure from the mesh; every
subsequent sequence of assembly calls leaves the structure unchanged;
and a later assembly refreshes the numeric values to the new
coefficients' assembled entries. -/
theorem matrix_structure_once (v : MatVariant) (mesh : FEMesh)
    (a0 b0 c0 : ℚ) (calls : List (ℚ × ℚ × ℚ)) (alpha beta gamma : ℚ) :
    ((assembleInto mesh a0 b0 c0 (emptyMat v)).structureBuilt = true ∧
      (assembleInto mesh a0 b0 c0 (emptyMat v)).pattern
        = computePattern v mesh) ∧
    (calls.foldl (fun B c => assembleInto mesh c.1 c.2.1 c.2.2 B)
        (assembleInto mesh a0 b0 c0 (emptyMat v))).pattern
      = computePattern v mesh ∧
    (assembleInto mesh alpha beta gamma
        (assembleInto mesh a0 b0 c0 (emptyMat v))).values
      = fun p => assembleJacobian mesh alpha beta gamma p.1 p.2 := by
  have hfirst : (assembleInto mesh a0 b0 c0 (emptyMat v)).structureBuilt
        = true ∧
      (assembleInto mesh a0 b0 c0 (emptyMat v)).pattern
        = computePattern v mesh := by
    unfold assembleInto emptyMat
    exact ⟨rfl, rfl⟩
  refine ⟨hfirst, ?_, ?_⟩
  · have := foldl_assemble_pattern mesh calls
      (assembleInto mesh a0 b0 c0 (emptyMat v)) hfirst.1
    rw [this.2, hfirst.2]
  · exact assembleInto_values mesh alpha beta gamma _

/-! ## BDF time integrator (claim C9)

The TACSIntegrator sources are not in the repository; the stepping
state machine is modelled from spec section 4.8.  The per-iteration
Newton update (one `assembleResidual`/`assembleJacobian` + Krylov solve)
and the residual norm are abstracted as functions `update` and
`resNorm`; the Newton loop iterates them until the norm is below the
tolerance or the iteration cap is reached. -/

/-- Modelled from the spec: the Newton loop — accept the current
iterate once its residual norm is below `tol`; otherwise apply one
update; give up (`none`) when the cap is exhausted. -/
def newtonLoop (update : (Nat → ℚ) → (Nat → ℚ))
    (resNorm : (Nat → ℚ) → ℚ) (tol : ℚ) (u : Nat → ℚ) :
    Nat → Option (Nat → ℚ)
  | 0 => if resNorm u < tol then some u else none
  | cap + 1 =>
    if resNorm u < tol then some u
    else newtonLoop update resNorm tol (update u) cap

/-- Modelled from the spec: the bounded step-halving retry — attempt a
Newton solve at the current step size; on non-convergence halve the
step and retry, at most `retries` times. -/
def attemptStep (newton : ℚ → ℚ → Option (Nat → ℚ)) (t h : ℚ) :
    Nat → Option ((Nat → ℚ) × ℚ)
  | 0 => (newton t h).map (fun w => (w, h))
  | retries + 1 =>
    match newton t h with
    | some w => some (w, h)
    | none => attemptStep newton t (h / 2) retries

/-- The integrator phases of spec section 4.8 (the doc names them
Initialized, Stepping, Finished). -/
inductive Phase where
  | Initial
  | Stepping
  | Finished

/-- The integrator state: phase, current time, current step size, the
multistep history of accepted states (most recent first), and whether
an IntegrationFailure has been reported. -/
structure BDFState where
  phase : Phase
  time : ℚ
  stepSize : ℚ
  history : List (Nat → ℚ)
  failed : Bool

/-- Modelled from the spec: one transition of the integrator state
machine — entering the stepping phase from the initial phase; in the
stepping phase, a converged (possibly step-halved) Newton solve pushes
the new state into the history and advances time, while exhausting the
bounded retries reports IntegrationFailure and terminates the run; the
terminal phase is absorbing. -/
def stepOnce (newton : ℚ → ℚ → Option (Nat → ℚ)) (retries : Nat)
    (s : BDFState) : BDFState :=
  match s.phase with
  | .Initial => { s with phase := .Stepping }
  | .Finished => s
  | .Stepping =>
    match attemptStep newton s.time s.stepSize retries with
    | some (w, hUsed) =>
      { s with
        time := s.time + hUsed
        stepSize := hUsed
        history := w :: s.history }
    | none => { s with phase := .Finished, failed := true }

/-- Helper: a state the Newton loop accepts has residual norm below the
tolerance. -/
theorem newtonLoop_some (update : (Nat → ℚ) → (Nat → ℚ))
    (resNorm : (Nat → ℚ) → ℚ) (tol : ℚ) :
    ∀ (cap : Nat) (u w : Nat → ℚ),
      newtonLoop update resNorm tol u cap = some w → resNorm w < tol := by
  intro cap
  induction cap with
  | zero =>
    intro u w h
    by_cases hres : resNorm u < tol
    · rw [newtonLoop, if_pos hres] at h
      cases h
      exact hres
    · rw [newtonLoop, if_neg hres] at h
      cases h
  | succ cap ih =>
    intro u w h
    by_cases hres : resNorm u < tol
    · rw [newtonLoop, if_pos hres] at h
      cases h
      exact hres
    · rw [newtonLoop, if_neg hres] at h
      exact ih (update u) w h

/-- Helper: the Newton loop fails exactly when every iterate within the
cap still has residual norm at or above the tolerance. -/
theorem newtonLoop_none (update : (Nat → ℚ) → (Nat → ℚ))
    (resNorm : (Nat → ℚ) → ℚ) (tol : ℚ) :
    ∀ (cap : Nat) (u : Nat → ℚ),
      newtonLoop update resNorm tol u cap = none ↔
        ∀ k, k ≤ cap → ¬ resNorm (update^[k] u) < tol := by
  intro cap
  induction cap with
  | zero =>
    intro u
    by_cases hres : resNorm u < tol
    · rw [newtonLoop, if_pos hres]
      simp only [reduceCtorEq, false_iff, not_forall]
      exact ⟨0, by omega, by simpa using hres⟩
    · rw [newtonLoop, if_neg hres]
      constructor
      · intro _ k hk
        have : k = 0 := by omega
        rw [this]
        simpa using hres
      · intro _
        rfl
  | succ cap ih =>
    intro u
    by_cases hres : resNorm u < tol
    · rw [newtonLoop, if_pos hres]
      simp only [reduceCtorEq, false_iff, not_forall]
      exact ⟨0, by omega, by simpa using hres⟩
    · rw [newtonLoop, if_neg hres]
      rw [ih (update u)]
      constructor
      · intro hall k hk
        cases k with
        | zero => simpa using hres
        | succ k =>
          rw [Function.iterate_succ_apply]
          exact hall k (by omega)
      · intro hall k hk
        have := hall (k + 1) (by omega)
        rw [Function.iterate_succ_apply] at this
        exact this

/-- Helper: a successful attempt used the step size halved at most
`retries` times, and its state came from a converged Newton solve at
that step size. -/
theorem attemptStep_some (newton : ℚ → ℚ → Option (Nat → ℚ)) (t : ℚ) :
    ∀ (retries : Nat) (h : ℚ) (w : Nat → ℚ) (hUsed : ℚ),
      attemptStep newton t h retries = some (w, hUsed) →
        ∃ j, j ≤ retries ∧ hUsed = h / 2 ^ j ∧ newton t hUsed = some w := by
  intro retries
  induction retries with
  | zero =>
    intro h w hUsed hsome
    rw [attemptStep] at hsome
    cases hn : newton t h with
    | none => rw [hn] at hsome; cases hsome
    | some w0 =>
      rw [hn] at hsome
      have hw : w0 = w ∧ h = hUsed := by
        constructor <;> [exact congrArg Prod.fst (Option.some.inj hsome);
          exact congrArg Prod.snd (Option.some.inj hsome)]
      refine ⟨0, Nat.le_refl 0, by rw [← hw.2]; norm_num, ?_⟩
      rw [← hw.2, hn, hw.1]
  | succ retries ih =>
    intro h w hUsed hsome
    rw [attemptStep] at hsome
    cases hn : newton t h with
    | some w0 =>
      rw [hn] at hsome
      have hw : w0 = w ∧ h = hUsed := by
        constructor <;> [exact congrArg Prod.fst (Option.some.inj hsome);
          exact congrArg Prod.snd (Option.some.inj hsome)]
      refine ⟨0, Nat.zero_le _, by rw [← hw.2]; norm_num, ?_⟩
      rw [← hw.2, hn, hw.1]
    | none =>
      rw [hn] at hsome
      obtain ⟨j, hj, hdiv, hnew⟩ := ih (h / 2) w hUsed hsome
      refine ⟨j + 1, by omega, ?_, hnew⟩
      rw [hdiv, div_div, ← pow_succ']

/-- Helper: the attempt fails exactly when the Newton solve fails at
every halved step size within the retry bound. -/
theorem attemptStep_none (newton : ℚ → ℚ → Option (Nat → ℚ)) (t : ℚ) :
    ∀ (retries : Nat) (h : ℚ),
      attemptStep newton t h retries = none ↔
        ∀ j, j ≤ retries → newton t (h / 2 ^ j) = none := by
  intro retries
  induction retries with
  | zero =>
    intro h
    rw [attemptStep]
    cases hn : newton t h with
    | none =>
      constructor
      · intro _ j hj
        have hj0 : j = 0 := by omega
        rw [hj0]
        simpa using hn
      · intro _
        rfl
    | some w =>
      constructor
      · intro hfalse
        exact absurd hfalse (by simp)
      · intro hall
        have h0 := hall 0 (by omega)
        rw [pow_zero, div_one, hn] at h0
        cases h0
  | succ retries ih =>
    intro h
    rw [attemptStep]
    cases hn : newton t h with
    | some w =>
      simp only [reduceCtorEq, false_iff, not_forall]
      exact ⟨0, by omega, by simp [hn]⟩
    | none =>
      rw [ih (h / 2)]
      constructor
      · intro hall j hj
        cases j with
        | zero => simpa using hn
        | succ j =>
          have := hall j (by omega)
          rw [div_div, ← pow_succ'] at this
          exact this
      · intro hall j hj
        have := hall (j + 1) (by omega)
        rw [div_div, ← pow_succ']
        exact this

/-- Modelled from the spec: the Newton solve of one implicit step —
iterate the per-step update map from the predictor guess until the
residual norm is below the tolerance or the iteration cap is hit. -/
def newtonOf (update : ℚ → ℚ → (Nat → ℚ) → (Nat → ℚ))
    (resNorm : ℚ → ℚ → (Nat → ℚ) → ℚ) (tol : ℚ)
    (guess : ℚ → ℚ → Nat → ℚ) (cap : Nat) (t h : ℚ) :
    Option (Nat → ℚ) :=
  newtonLoop (update t h) (resNorm t h) tol (guess t h) cap

/-- C9: the BDF step is a state machine over
{Initialized, Stepping, Finished}; each step Newton-iterates the
assembled update until the residual norm is below tolerance or the
iteration cap is reached; on convergence the new state is pushed into
the multistep history and time advances by the (possibly halved) step;
on non-convergence the step is halved and retried at most `retries`
times, after which the failure is reported and the run terminates (the
terminal state is absorbing). -/
theorem bdf_step_spec
    (update : ℚ → ℚ → (Nat → ℚ) → (Nat → ℚ))
    (resNorm : ℚ → ℚ → (Nat → ℚ) → ℚ) (tol : ℚ)
    (guess : ℚ → ℚ → Nat → ℚ) (cap retries : Nat) (s : BDFState)
    (hs : s.phase = Phase.Stepping) :
    (∀ t h w, newtonOf update resNorm tol guess cap t h = some w →
        resNorm t h w < tol) ∧
    (∀ t h, newtonOf update resNorm tol guess cap t h = none ↔
        ∀ k, k ≤ cap →
          ¬ resNorm t h ((update t h)^[k] (guess t h)) < tol) ∧
    (∀ w hUsed,
      attemptStep (newtonOf update resNorm tol guess cap) s.time
          s.stepSize retries = some (w, hUsed) →
        stepOnce (newtonOf update resNorm tol guess cap) retries s
          = { s with
              time := s.time + hUsed
              stepSize := hUsed
              history := w :: s.history } ∧
        ∃ j, j ≤ retries ∧ hUsed = s.stepSize / 2 ^ j ∧
          resNorm s.time hUsed w < tol) ∧
    (attemptStep (newtonOf update resNorm tol guess cap) s.time
        s.stepSize retries = none →
      (∀ j, j ≤ retries →
        newtonOf update resNorm tol guess cap s.time
          (s.stepSize / 2 ^ j) = none) ∧
      stepOnce (newtonOf update resNorm tol guess cap) retries s
        = { s with phase := Phase.Finished, failed := true } ∧
      stepOnce (newtonOf update resNorm tol guess cap) retries
          { s with phase := Phase.Finished, failed := true }
        = { s with phase := Phase.Finished, failed := true }) := by
  refine ⟨?_, ?_, ?_, ?_⟩
  · intro t h w hw
    exact newtonLoop_some (update t h) (resNorm t h) tol cap (guess t h) w hw
  · intro t h
    exact newtonLoop_none (update t h) (resNorm t h) tol cap (guess t h)
  · intro w hUsed hatt
    constructor
    · simp only [stepOnce, hs, hatt]
    · obtain ⟨j, hj, hdiv, hnew⟩ :=
        attemptStep_some (newtonOf update resNorm tol guess cap) s.time
          retries s.stepSize w hUsed hatt
      exact ⟨j, hj, hdiv,
        newtonLoop_some (update s.time hUsed) (resNorm s.time hUsed) tol
          cap (guess s.time hUsed) w hnew⟩
  · intro hatt
    refine ⟨?_, ?_, ?_⟩
    · exact (attemptStep_none (newtonOf update resNorm tol guess cap)
        s.time retries s.stepSize).mp hatt
    · simp only [stepOnce, hs, hatt]
    · rfl

/-- Witness for C9: with a Newton solve that accepts the zero state
immediately, a stepping state at time 0 with step size 1 advances to
time 1 and pushes the accepted state into the history. -/
theorem bdf_step_spec_witness :
    stepOnce (newtonOf (fun _ _ u => u) (fun _ _ _ => 0) 1 (fun _ _ _ => 0) 0)
        0 ⟨Phase.Stepping, 0, 1, [], false⟩
      = { phase := Phase.Stepping, time := (0 : ℚ) + 1, stepSize := 1,
          history := [fun _ => (0 : ℚ)], failed := false } :=
  ((bdf_step_spec (fun _ _ u => u) (fun _ _ _ => 0) 1 (fun _ _ _ => 0) 0 0
      ⟨Phase.Stepping, 0, 1, [], false⟩ rfl).2.2.1 (fun _ => 0) 1
    (by
      show ((newtonOf (fun _ _ u => u) (fun _ _ _ => 0) 1 (fun _ _ _ => 0) 0
          0 1).map (fun w => (w, 1))) = some (fun _ => 0, 1)
      rw [show newtonOf (fun _ _ u => u) (fun _ _ _ => 0) 1 (fun _ _ _ => 0) 0
          0 1 = some (fun _ => 0) from by
        show (if (0 : ℚ) < 1 then some (fun _ => (0 : ℚ)) else none)
            = some (fun _ => 0)
        rw [if_pos (by norm_num)]]
      rfl)).1

/-! ## Adjoint design sensitivity (claim C1)

The adjoint path (`evalSVSens`, `evalAdjointResProduct`, `evalDVSens`)
lives in TACSAssembler/TACSFunction sources absent from this
repository; the coupled system is modelled from spec section 4.4: a
governing residual `R(x, u) = A u - (x • db + b0)` that is linear in
the state with a design-affine load, and a scalar functional
`F(x, u) = c ⬝ᵥ u + g1 x + g2 x²` (linear in the state with an explicit
design dependence).  The partial derivatives are then
`∂F/∂u = c`, `∂F/∂x = g1 + 2 g2 x` and `∂R/∂x = -db`, so the adjoint
total derivative is `∂F/∂x - λᵀ ∂R/∂x = (g1 + 2 g2 x) + λ ⬝ᵥ db` with
`λ` solving `Aᵀ λ = c`. -/

/-- Modelled from the spec: the governing residual of the linear model,
`R(x, u) = A u - (x • db + b0)`. -/
def modelResidual {n : Nat} (A : Matrix (Fin n) (Fin n) ℚ)
    (db b0 : Fin n → ℚ) (x : ℚ) (u : Fin n → ℚ) : Fin n → ℚ :=
  A.mulVec u - (x • db + b0)

/-- Modelled from the spec: the scalar functional
`F(x, u) = c ⬝ᵥ u + g1 x + g2 x²`. -/
def modelFunctional {n : Nat} (c : Fin n → ℚ) (g1 g2 x : ℚ)
    (u : Fin n → ℚ) : ℚ :=
  Matrix.dotProduct c u + g1 * x + g2 * x ^ 2

/-- The adjoint-path total derivative
`dF/dx = ∂F/∂x - λᵀ ∂R/∂x = (g1 + 2 g2 x) + λ ⬝ᵥ db`. -/
def adjointTotalDeriv {n : Nat} (lam db : Fin n → ℚ) (g1 g2 x : ℚ) : ℚ :=
  (g1 + 2 * g2 * x) + Matrix.dotProduct lam db

/-- Helper: along the solution path of the governing equations, with
the adjoint variable solving `Aᵀ λ = ∂F/∂u`, the functional is an
explicit polynomial in the design variable. -/
theorem functional_on_solution {n : Nat} (A : Matrix (Fin n) (Fin n) ℚ)
    (db b0 c lam : Fin n → ℚ) (g1 g2 : ℚ) (u : ℚ → Fin n → ℚ)
    (hu : ∀ y, modelResidual A db b0 y (u y) = 0)
    (hlam : A.transpose.mulVec lam = c) (y : ℚ) :
    modelFunctional c g1 g2 y (u y)
      = y * Matrix.dotProduct lam db + Matrix.dotProduct lam b0
        + g1 * y + g2 * (y * y) := by
  have hres := hu y
  unfold modelResidual at hres
  have hAu : A.mulVec (u y) = y • db + b0 := by
    rwa [sub_eq_zero] at hres
  unfold modelFunctional
  have h1 : Matrix.dotProduct c (u y)
      = Matrix.dotProduct lam (A.mulVec (u y)) := by
    rw [← hlam, Matrix.mulVec_transpose]
    exact (Matrix.dotProduct_mulVec lam A (u y)).symm
  rw [h1, hAu, Matrix.dotProduct_add, Matrix.dotProduct_smul, smul_eq_mul]
  ring

/-- C1: for the modelled linear problem, the total derivative computed
by the adjoint path, `dF/dx = ∂F/∂x - λᵀ ∂R/∂x` with `λ` solving
`Aᵀ λ = ∂F/∂u`, is the true derivative of `x ↦ F(x, u(x))` along the
solution path, and the finite-difference quotient
`(F(x+h) - F(x))/h` converges to it as `h → 0`. -/
theorem adjoint_consistency {n : Nat} (A : Matrix (Fin n) (Fin n) ℚ)
    (db b0 c lam : Fin n → ℚ) (g1 g2 : ℚ) (u : ℚ → Fin n → ℚ) (x : ℚ)
    (hu : ∀ y, modelResidual A db b0 y (u y) = 0)
    (hlam : A.transpose.mulVec lam = c) :
    HasDerivAt (fun y => modelFunctional c g1 g2 y (u y))
      (adjointTotalDeriv lam db g1 g2 x) x ∧
    Filter.Tendsto
      (fun h => (modelFunctional c g1 g2 (x + h) (u (x + h))
          - modelFunctional c g1 g2 x (u x)) / h)
      (nhdsWithin 0 {(0 : ℚ)}ᶜ)
      (nhds (adjointTotalDeriv lam db g1 g2 x)) := by
  have hpoly : HasDerivAt (fun y : ℚ =>
      y * Matrix.dotProduct lam db + Matrix.dotProduct lam b0
        + g1 * y + g2 * (y * y))
      (adjointTotalDeriv lam db g1 g2 x) x := by
    have h1 : HasDerivAt (fun y : ℚ => y * Matrix.dotProduct lam db)
        (Matrix.dotProduct lam db) x := by
      simpa using (hasDerivAt_id x).mul_const (Matrix.dotProduct lam db)
    have h2 : HasDerivAt (fun _ : ℚ => Matrix.dotProduct lam b0) 0 x :=
      hasDerivAt_const x _
    have h3 : HasDerivAt (fun y : ℚ => g1 * y) g1 x := by
      simpa using (hasDerivAt_id x).const_mul g1
    have h4 : HasDerivAt (fun y : ℚ => g2 * (y * y))
        (g2 * (1 * x + x * 1)) x :=
      ((hasDerivAt_id x).mul (hasDerivAt_id x)).const_mul g2
    have hsum := ((h1.add h2).add h3).add h4
    have heq : Matrix.dotProduct lam db + 0 + g1 + g2 * (1 * x + x * 1)
        = adjointTotalDeriv lam db g1 g2 x := by
      unfold adjointTotalDeriv
      ring
    rw [heq] at hsum
    exact hsum
  have hFeq : (fun y => modelFunctional c g1 g2 y (u y))
      = fun y : ℚ =>
        y * Matrix.dotProduct lam db + Matrix.dotProduct lam b0
          + g1 * y + g2 * (y * y) :=
    funext (functional_on_solution A db b0 c lam g1 g2 u hu hlam)
  have hFderiv : HasDerivAt (fun y => modelFunctional c g1 g2 y (u y))
      (adjointTotalDeriv lam db g1 g2 x) x := by
    rw [hFeq]
    exact hpoly
  refine ⟨hFderiv, ?_⟩
  have hslope := hasDerivAt_iff_tendsto_slope_zero.mp hFderiv
  have hfun : (fun h : ℚ => (modelFunctional c g1 g2 (x + h) (u (x + h))
      - modelFunctional c g1 g2 x (u x)) / h)
      = fun t : ℚ =>
        t⁻¹ • ((fun y => modelFunctional c g1 g2 y (u y)) (x + t)
          - (fun y => modelFunctional c g1 g2 y (u y)) x) := by
    funext t
    rw [smul_eq_mul, div_eq_inv_mul]
  rw [hfun]
  exact hslope

/-- Witness for C1: a one-dof model with identity Jacobian, unit load
derivative and unit adjoint; the adjoint total derivative is the true
derivative at `x = 0`. -/
theorem adjoint_consistency_witness :
    HasDerivAt
      (fun y : ℚ => modelFunctional (fun _ : Fin 1 => (1 : ℚ)) 0 0 y
        ((fun z : ℚ => fun _ : Fin 1 => z) y))
      (adjointTotalDeriv (fun _ : Fin 1 => (1 : ℚ))
        (fun _ : Fin 1 => (1 : ℚ)) 0 0 0) 0 :=
  (adjoint_consistency (1 : Matrix (Fin 1) (Fin 1) ℚ)
    (fun _ => 1) (fun _ => 0) (fun _ => 1) (fun _ => 1) 0 0
    (fun z _ => z) 0
    (by
      intro y
      funext i
      simp [modelResidual, Matrix.one_mulVec])
    (by
      funext i
      simp [Matrix.transpose_one, Matrix.one_mulVec])).1

end Tacs
